import Mathlib

/-!
Verification of the cascade lifecycle coordinator (package `cascade`).

The development contains two shallow embeddings of the Go source:

* Model A (`CTree`, `killC`, ...): a sequential trace semantics of the
  shutdown driver.  A scope tree is an inductive tree carrying the fields of
  the Go `Cascade` struct; `killC` executes `Kill`/`Cancel` under the
  canonical schedule in which the driver performs every child's shutdown
  itself (each spawned child goroutine runs to completion during the parent's
  `wg.Wait`), and records the observable events in order.  Recursion is
  fuel-indexed (one unit of fuel per tree level) so that every definition
  computes by `rfl`/`decide`; public wrappers instantiate the fuel with
  `sizeOf`.

* Model B (`Config`, `step`, `run`): an interleaving small-step machine.
  Each thread runs the compiled atomic steps of `Kill`/`Cancel` (the
  test-and-set on `isDead`, the fan-out that spawns one goroutine per child,
  the `wg.Wait`, and the steps of `closeAndClean`) or of `Mark`/`UnMark`.
  Each atomic step corresponds to one mutex-protected critical section of
  the source.  A schedule is a list of thread indices; `run` folds `step`
  over it.  This model exhibits the racy schedules and supports invariant
  proofs over all reachable configurations.
-/

namespace Cascade

/-- Observable events of a shutdown drive: the write of the `isDead` flag,
the closing of the `dying`/`dead`/`done` channels of a scope, the blocking
`Wait` call of the driver when `tracked` is nonzero, the execution of a
queued action, the cancellation of a tracked context, and the write of the
error slot.  The first argument is always the scope id. -/
inductive Ev where
  | setFlag : Nat → Ev
  | dying : Nat → Ev
  | dead : Nat → Ev
  | waitDead : Nat → Ev
  | act : Nat → Nat → Ev
  | cancelTok : Nat → Nat → Ev
  | setErr : Nat → Nat → Ev
  | done : Nat → Ev
deriving DecidableEq, Repr

/-- Model A scope tree.  Fields mirror the Go `Cascade` struct: `id`
identifies the scope (the struct pointer), `isDead` is the flag guarded by
`muDead`, `dying`/`dead`/`done` record whether the corresponding channel has
been closed, `tracked` is the activity counter, `actions` the hook queue
(hooks named by numbers), `aRun` the `onceActions` flag, `tctx` the tracked
context map (`none` models the nil map, tokens named by numbers), `err` the
error slot, and `children` the child map (`none` models the nil map).
The `parent` pointer is represented externally by `PCtx` chains. -/
inductive CTree where
  | mk (id : Nat) (isDead dying dead done : Bool) (tracked : Int)
      (actions : List Nat) (aRun : Bool) (tctx : Option (List Nat))
      (err : Option Nat) (children : Option (List CTree))

def CTree.rootId : CTree → Nat
  | .mk i _ _ _ _ _ _ _ _ _ _ => i

def CTree.rootErr : CTree → Option Nat
  | .mk _ _ _ _ _ _ _ _ _ e _ => e

def CTree.rootActions : CTree → List Nat
  | .mk _ _ _ _ _ _ a _ _ _ _ => a

def CTree.rootTctx : CTree → Option (List Nat)
  | .mk _ _ _ _ _ _ _ _ tc _ _ => tc

def CTree.rootChildren : CTree → Option (List CTree)
  | .mk _ _ _ _ _ _ _ _ _ _ ch => ch

/-- Sequential execution of `Kill` (`g = true`) or `Cancel` (`g = false`)
under the canonical schedule, returning the final tree and the event trace.

Source (`Kill`/`Cancel`): lock `muDead`; if `isDead` return at once,
otherwise set `isDead` and proceed: spawn `child.Kill`/`child.Cancel` for
every child and `wg.Wait` for them (here: run them in order), then
`closeAndClean(g)`: set `children = nil`, close `dying` (once), then if
`tracked == 0` close `dead` (once) else block in `Wait()`; run the queued
actions when `g` and not already run; cancel every tracked context and set
the map `nil`; remove self from the parent (invisible here because a parent
driving its children clears its whole child map right afterwards); close
`done` (once).  In the `tracked ≠ 0` branch the sequential driver blocks
forever, so the function stops there, returning the blocked state.
Fuel decreases on every recursion into a child. -/
def killC (g : Bool) : Nat → CTree → CTree × List Ev
  | 0, t => (t, [])
  | fuel + 1, .mk i isD dg dd dn trk acts aR tc er ch =>
    if isD then
      (.mk i isD dg dd dn trk acts aR tc er ch, [])
    else
      let rs := (ch.getD []).map (killC g fuel)
      let chTr := (rs.map Prod.snd).flatten
      let dyE := if dg then [] else [Ev.dying i]
      if trk = 0 then
        let ddE := if dd then [] else [Ev.dead i]
        let aE := if g && !aR then acts.map (Ev.act i) else []
        let cE := (tc.getD []).map (Ev.cancelTok i)
        let dnE := if dn then [] else [Ev.done i]
        (.mk i true true true true trk acts (aR || g) none er none,
          Ev.setFlag i :: (chTr ++ dyE ++ ddE ++ aE ++ cE ++ dnE))
      else
        (.mk i true true dd dn trk acts aR tc er none,
          Ev.setFlag i :: (chTr ++ dyE ++ [Ev.waitDead i]))

/-- A freshly built (never killed) scope tree: all flags false, `tracked`
zero, actions not yet run, a non-nil context map and a non-nil child map at
every node, exactly as `RootCascade` initializes them.  Fuel-indexed;
`freshB 0 t = false`, so `freshB fuel t = true` bounds the height of `t`
by `fuel`, which makes the same `fuel` sufficient for `killC`. -/
def freshB : Nat → CTree → Bool
  | 0, _ => false
  | fuel + 1, .mk _ isD dg dd dn trk _ aR tc _ ch =>
    !isD && !dg && !dd && !dn && (trk == 0) && !aR && tc.isSome &&
      (match ch with
        | none => false
        | some l => l.all (freshB fuel))

/-- Scope ids occurring in a tree, fuel-indexed like `killC`. -/
def idsB : Nat → CTree → List Nat
  | 0, _ => []
  | fuel + 1, .mk i _ _ _ _ _ _ _ _ _ ch =>
    i :: ((ch.getD []).map (idsB fuel)).flatten

/-- Scope an event belongs to. -/
def evScope : Ev → Nat
  | .setFlag s => s
  | .dying s => s
  | .dead s => s
  | .waitDead s => s
  | .act s _ => s
  | .cancelTok s _ => s
  | .setErr s _ => s
  | .done s => s

/-- Is the event the execution of a hook? -/
def isAct : Ev → Bool
  | .act _ _ => true
  | _ => false

def isSetErr : Ev → Bool
  | .setErr _ _ => true
  | _ => false

/-- `beforeB tr a b` holds when some occurrence of `a` in `tr` is followed,
strictly later, by an occurrence of `b` (computed from the first occurrence
of `a`, which is equivalent). -/
def beforeB : List Ev → Ev → Ev → Bool
  | [], _, _ => false
  | e :: rest, a, b => if e = a then rest.contains b else beforeB rest a b

/-- The scope `RootCascade()` returns: no flags set, empty action list,
empty but non-nil context map and child map, no error. -/
def leafC (n : Nat) : CTree :=
  .mk n false false false false 0 [] false (some []) none (some [])

/-- `ChildCascade`: builds a fresh scope and inserts it into the receiver's
child map.  When the child map is nil (`none`, as `closeAndClean` leaves it)
the Go insertion `c.children[child] = nil` faults on the nil map, modelled
by `none`. -/
def childCascadeT (n : Nat) : CTree → Option CTree
  | .mk i isD dg dd dn trk acts aR tc er ch =>
    match ch with
    | none => none
    | some l => some (.mk i isD dg dd dn trk acts aR tc er (some (l ++ [leafC n])))

/-- `DoOnKill`: append the action at the tail of the queue. -/
def doOnKill (a : Nat) : CTree → CTree
  | .mk i isD dg dd dn trk acts aR tc er ch =>
    .mk i isD dg dd dn trk (acts ++ [a]) aR tc er ch

/-- `DoFirstOnKill`: prepend the action at the head of the queue. -/
def doFirstOnKill (a : Nat) : CTree → CTree
  | .mk i isD dg dd dn trk acts aR tc er ch =>
    .mk i isD dg dd dn trk (a :: acts) aR tc er ch

/-- A hook registration: `app` is a `DoOnKill` call, `pre` a
`DoFirstOnKill` call. -/
inductive Reg where
  | app : Nat → Reg
  | pre : Nat → Reg
deriving DecidableEq, Repr

def applyReg (t : CTree) : Reg → CTree
  | .app a => doOnKill a t
  | .pre a => doFirstOnKill a t

def applyRegs (t : CTree) (regs : List Reg) : CTree :=
  regs.foldl applyReg t

/-- The execution order the spec ascribes to a registration sequence: each
append inserts at the current tail, each prepend at the current head, and
execution is head-to-tail. -/
def specOrder (regs : List Reg) : List Nat :=
  regs.foldl (fun l r => match r with | .app a => l ++ [a] | .pre a => a :: l) []

def setRootErr (e : Nat) : CTree → CTree
  | .mk i isD dg dd dn trk acts aR tc _ ch =>
    .mk i isD dg dd dn trk acts aR tc (some e) ch

/-- `KillWithError` / `CancelWithError`: under `muErr`, fail when the error
slot is already occupied (the Bool component `true` models the returned
`errors.New("cascade: error already set")`), otherwise store the error and
drive the shutdown. -/
def killWithErrorC (g : Bool) (e : Nat) (fuel : Nat) (t : CTree) :
    CTree × List Ev × Bool :=
  match t.rootErr with
  | some _ => (t, [], true)
  | none =>
    let r := killC g fuel (setRootErr e t)
    (r.1, Ev.setErr t.rootId e :: r.2, false)

/-- One ancestor on the parent chain of a scope: the parent's own fields
together with the siblings to the left and right of the distinguished
child. -/
structure PCtx where
  id : Nat
  isDead : Bool
  dying : Bool
  dead : Bool
  done : Bool
  tracked : Int
  actions : List Nat
  aRun : Bool
  tctx : Option (List Nat)
  err : Option Nat
  left : List CTree
  right : List CTree

/-- Rebuild the parent scope from its context and the distinguished child. -/
def plug (k : PCtx) (c : CTree) : CTree :=
  .mk k.id k.isDead k.dying k.dead k.done k.tracked k.actions k.aRun k.tctx
    k.err (some (k.left ++ c :: k.right))

/-- Rebuild the whole tree from a scope and its ancestor chain (nearest
ancestor first). -/
def plugChain (anc : List PCtx) (c : CTree) : CTree :=
  anc.foldl (fun acc k => plug k acc) c

/-- `KillAll` / `CancelAll`: walk the parent links to the root and invoke
`Kill` / `Cancel` there; act locally when the receiver has no parent.  The
receiver is the scope `c`, its parent chain is `anc`. -/
def killAllC (g : Bool) (fuel : Nat) : List PCtx → CTree → CTree × List Ev
  | [], c => killC g fuel c
  | k :: ks, c => killAllC g fuel ks (plug k c)

/-- `KillAllWithError` / `CancelAllWithError`: walk the parent links to the
root and invoke `KillWithError` / `CancelWithError` there.  The Go functions
have no return value, so the error returned by the inner call is discarded:
the result type has no error component. -/
def killAllWithErrorC (g : Bool) (e : Nat) (fuel : Nat) :
    List PCtx → CTree → CTree × List Ev
  | [], c =>
    let r := killWithErrorC g e fuel c
    (r.1, r.2.1)
  | k :: ks, c => killAllWithErrorC g e fuel ks (plug k c)

/-!  Model B: the interleaving small-step machine. -/

/-- Model B state of one scope.  `children = none` and `tctx = none` model
the nil maps; child scopes and parents are named by scope ids. -/
structure ScopeSt where
  parent : Option Nat
  children : Option (List Nat)
  dying : Bool
  dead : Bool
  done : Bool
  isDead : Bool
  tracked : Int
  aRun : Bool
  tctx : Option (List Nat)
  err : Option Nat
deriving DecidableEq, Repr

/-- Program counter of a thread.  The `Kill`/`Cancel` body (`g` tells the
mode, `s` the scope) is compiled to: `cas` (the `muDead`-guarded
test-and-set of `isDead`), `fanout` (the `muChildren`-guarded loop that
spawns one goroutine per child and counts them in the wait group), `wgWait`
(`wg.Wait()`, enabled once every spawned goroutine has finished), then the
critical sections of `closeAndClean`: `ccClear` (`children = nil`),
`ccDying` (close `dying`, once), `ccGate` (read `tracked` under the read
lock; close `dead` when zero), `ccWaitDead` (`Wait()`, enabled once `dead`
is closed), `ccActions` (run the queued actions, once, only when `g`),
`ccCancelCtx` (cancel the tracked contexts, map becomes nil), `ccRemove`
(`parent.removeChild(c)`), `ccDone` (close `done`, once), and `retire`
(the spawned goroutine's `wg.Done()`; for a plain caller, returning).
`unmarkDec`/`unmarkChk`/`unmarkGate` compile `UnMark` (decrement; read
`IsDead`; re-check the gate), `markInc`/`markChk`/`markGate` compile
`Mark`. -/
inductive PC where
  | cas : Bool → Nat → PC
  | fanout : Bool → Nat → PC
  | wgWait : Bool → Nat → PC
  | ccClear : Bool → Nat → PC
  | ccDying : Bool → Nat → PC
  | ccGate : Bool → Nat → PC
  | ccWaitDead : Bool → Nat → PC
  | ccActions : Bool → Nat → PC
  | ccCancelCtx : Bool → Nat → PC
  | ccRemove : Bool → Nat → PC
  | ccDone : Bool → Nat → PC
  | retire : PC
  | unmarkDec : Nat → PC
  | unmarkChk : Nat → PC
  | unmarkGate : Nat → PC
  | markInc : Nat → PC
  | markChk : Nat → PC
  | markGate : Nat → PC
  | finished : PC
deriving DecidableEq, Repr

/-- A thread: its program counter, the thread to notify on return (`some
tid` for a goroutine spawned by the fan-out of thread `tid`, which must
perform `wg.Done`), and its own wait-group counter. -/
structure ThreadSt where
  pc : PC
  notify : Option Nat
  wg : Nat
deriving DecidableEq, Repr

/-- Model B configuration: the heap of scopes and the thread pool.
Thread ids are indices into `threads`. -/
structure Config where
  scopes : Nat → ScopeSt
  threads : List ThreadSt

def setScope (f : Nat → ScopeSt) (s : Nat) (v : ScopeSt) : Nat → ScopeSt :=
  fun n => if n = s then v else f n

/-- One atomic step of thread `tid` (currently at `th`).  Each case is one
mutex-protected critical section of the source; channel closes are
monotone flag writes; the `once` guards make re-closing a no-op, so closing
is plain `true`.  `ccActions` abstracts the body of `runActions` to its
`once` flag — the order of the individual hooks is verified in Model A. -/
def stepThread (cfg : Config) (tid : Nat) (th : ThreadSt) : Config :=
  match th.pc with
  | .cas g s =>
    let sc := cfg.scopes s
    if sc.isDead then
      { cfg with threads := cfg.threads.set tid { th with pc := .retire } }
    else
      { scopes := setScope cfg.scopes s { sc with isDead := true },
        threads := cfg.threads.set tid { th with pc := .fanout g s } }
  | .fanout g s =>
    let kids := (cfg.scopes s).children.getD []
    let spawned := kids.map (fun k => ThreadSt.mk (.cas g k) (some tid) 0)
    { cfg with threads :=
        (cfg.threads.set tid { th with pc := .wgWait g s, wg := kids.length }) ++ spawned }
  | .wgWait g s =>
    if th.wg = 0 then
      { cfg with threads := cfg.threads.set tid { th with pc := .ccClear g s } }
    else cfg
  | .ccClear g s =>
    let sc := cfg.scopes s
    { scopes := setScope cfg.scopes s { sc with children := none },
      threads := cfg.threads.set tid { th with pc := .ccDying g s } }
  | .ccDying g s =>
    let sc := cfg.scopes s
    { scopes := setScope cfg.scopes s { sc with dying := true },
      threads := cfg.threads.set tid { th with pc := .ccGate g s } }
  | .ccGate g s =>
    let sc := cfg.scopes s
    if sc.tracked = 0 then
      { scopes := setScope cfg.scopes s { sc with dead := true },
        threads := cfg.threads.set tid { th with pc := .ccActions g s } }
    else
      { cfg with threads := cfg.threads.set tid { th with pc := .ccWaitDead g s } }
  | .ccWaitDead g s =>
    if (cfg.scopes s).dead then
      { cfg with threads := cfg.threads.set tid { th with pc := .ccActions g s } }
    else cfg
  | .ccActions g s =>
    let sc := cfg.scopes s
    { scopes := setScope cfg.scopes s { sc with aRun := sc.aRun || g },
      threads := cfg.threads.set tid { th with pc := .ccCancelCtx g s } }
  | .ccCancelCtx g s =>
    let sc := cfg.scopes s
    { scopes := setScope cfg.scopes s { sc with tctx := none },
      threads := cfg.threads.set tid { th with pc := .ccRemove g s } }
  | .ccRemove g s =>
    match (cfg.scopes s).parent with
    | none =>
      { cfg with threads := cfg.threads.set tid { th with pc := .ccDone g s } }
    | some p =>
      let psc := cfg.scopes p
      { scopes := setScope cfg.scopes p
          { psc with children := psc.children.map (fun l => l.erase s) },
        threads := cfg.threads.set tid { th with pc := .ccDone g s } }
  | .ccDone g s =>
    let sc := cfg.scopes s
    { scopes := setScope cfg.scopes s { sc with done := true },
      threads := cfg.threads.set tid { th with pc := .retire } }
  | .retire =>
    match th.notify with
    | none =>
      { cfg with threads := cfg.threads.set tid { th with pc := .finished } }
    | some ptid =>
      let threads' :=
        match cfg.threads.get? ptid with
        | some pth => cfg.threads.set ptid { pth with wg := pth.wg - 1 }
        | none => cfg.threads
      { cfg with threads := threads'.set tid { th with pc := .finished } }
  | .unmarkDec s =>
    let sc := cfg.scopes s
    { scopes := setScope cfg.scopes s { sc with tracked := sc.tracked - 1 },
      threads := cfg.threads.set tid { th with pc := .unmarkChk s } }
  | .unmarkChk s =>
    if (cfg.scopes s).isDead then
      { cfg with threads := cfg.threads.set tid { th with pc := .unmarkGate s } }
    else
      { cfg with threads := cfg.threads.set tid { th with pc := .finished } }
  | .unmarkGate s =>
    let sc := cfg.scopes s
    if sc.tracked = 0 then
      { scopes := setScope cfg.scopes s { sc with dead := true },
        threads := cfg.threads.set tid { th with pc := .finished } }
    else
      { cfg with threads := cfg.threads.set tid { th with pc := .finished } }
  | .markInc s =>
    let sc := cfg.scopes s
    { scopes := setScope cfg.scopes s { sc with tracked := sc.tracked + 1 },
      threads := cfg.threads.set tid { th with pc := .markChk s } }
  | .markChk s =>
    if (cfg.scopes s).isDead then
      { cfg with threads := cfg.threads.set tid { th with pc := .markGate s } }
    else
      { cfg with threads := cfg.threads.set tid { th with pc := .finished } }
  | .markGate s =>
    let sc := cfg.scopes s
    if sc.tracked = 0 then
      { scopes := setScope cfg.scopes s { sc with dead := true },
        threads := cfg.threads.set tid { th with pc := .finished } }
    else
      { cfg with threads := cfg.threads.set tid { th with pc := .finished } }
  | .finished => cfg

/-- One scheduler step: run one atomic step of thread `tid` (no-op for an
invalid id; a blocked thread leaves the configuration unchanged). -/
def step (cfg : Config) (tid : Nat) : Config :=
  match cfg.threads.get? tid with
  | none => cfg
  | some th => stepThread cfg tid th

/-- Run a schedule: a list of thread ids, stepped in order. -/
def run (cfg : Config) (sch : List Nat) : Config :=
  sch.foldl step cfg

/-- Entry program counters: what a thread looks like before its call has
taken any step. -/
def entryPC : PC → Prop
  | .cas _ _ => True
  | .unmarkDec _ => True
  | .markInc _ => True
  | .finished => True
  | _ => False

/-- Wellformed initial configuration: no phase has fired on any scope, no
shutdown has begun, and every thread is at the entry of its call. -/
def WFInit (cfg : Config) : Prop :=
  (∀ s, (cfg.scopes s).dying = false ∧ (cfg.scopes s).dead = false ∧
    (cfg.scopes s).done = false ∧ (cfg.scopes s).isDead = false) ∧
  (∀ th ∈ cfg.threads, entryPC th.pc ∧ th.notify = none ∧ th.wg = 0)

/-!  Concrete configurations used to exhibit racy schedules. -/

/-- A fresh Model B scope with the given parent, children and counter. -/
def mkScope (p : Option Nat) (ch : List Nat) (trk : Int) : ScopeSt :=
  ⟨p, some ch, false, false, false, false, trk, false, some [], none⟩

/-- Parent scope `0` with child scope `1`; thread `0` is a concurrent
`Kill` of the child, thread `1` a `Kill` of the parent. -/
def cfgRace1 : Config :=
  ⟨fun n => if n = 0 then mkScope none [1] 0
    else if n = 1 then mkScope (some 0) [] 0
    else mkScope none [] 0,
   [⟨.cas true 1, none, 0⟩, ⟨.cas true 0, none, 0⟩]⟩

/-- The schedule: thread 0 performs only the child's test-and-set and is
then preempted; thread 1 drives the parent's shutdown to completion (its
fan-out goroutine, thread 2, sees the child's `isDead` already set and
returns at once). -/
def schRace1 : List Nat := [0, 1, 1, 2, 2, 1, 1, 1, 1, 1, 1, 1, 1]

/-- A single scope `0` with one outstanding mark; thread `0` is `Kill`,
thread `1` is the `UnMark` of the marked activity. -/
def cfgRace2 : Config :=
  ⟨fun n => if n = 0 then mkScope none [] 1 else mkScope none [] 0,
   [⟨.cas true 0, none, 0⟩, ⟨.unmarkDec 0, none, 0⟩]⟩

/-- The schedule: the `Kill` thread performs the test-and-set and is then
preempted before `closeAndClean`; the `UnMark` thread runs to completion
and closes `dead` (via the `IsDead` re-check) before `dying` is closed. -/
def schRace2 : List Nat := [0, 1, 1, 1]

/-- A single scope `0` with one outstanding mark; threads `0` and `1` are
two concurrent `Kill` calls. -/
def cfgRace3 : Config :=
  ⟨fun n => if n = 0 then mkScope none [] 1 else mkScope none [] 0,
   [⟨.cas true 0, none, 0⟩, ⟨.cas true 0, none, 0⟩]⟩

/-- The schedule: thread 0 wins the test-and-set (and will stay blocked at
the `tracked` gate because of the outstanding mark); thread 1 loses the
test-and-set and returns at once. -/
def schRace3 : List Nat := [0, 1, 1]

/-!  Basic lemmas about `beforeB`. -/

theorem beforeB_mem {tr : List Ev} {a b : Ev} (h : beforeB tr a b = true) :
    b ∈ tr := by
  induction tr with
  | nil => simp [beforeB] at h
  | cons e rest ih =>
    rw [beforeB] at h
    by_cases he : e = a
    · simp [he] at h
      exact List.mem_cons_of_mem _ h
    · simp [he] at h
      exact List.mem_cons_of_mem _ (ih h)

theorem beforeB_intro (x y : List Ev) (a b : Ev) (hb : b ∈ y) :
    beforeB (x ++ a :: y) a b = true := by
  induction x with
  | nil =>
    simp [beforeB, hb]
  | cons e x ih =>
    rw [List.cons_append, beforeB]
    by_cases he : e = a
    · simp [he, hb]
    · simp [he]
      exact ih

theorem beforeB_of_eq {tr : List Ev} (x y : List Ev) {a b : Ev}
    (h : tr = x ++ a :: y) (hb : b ∈ y) : beforeB tr a b = true := by
  rw [h]; exact beforeB_intro x y a b hb

theorem filter_flatten_ev (p : Ev → Bool) (L : List (List Ev)) :
    L.flatten.filter p = (L.map (List.filter p)).flatten := by
  induction L with
  | nil => rfl
  | cons l L ih => simp [List.filter_append, ih]

/-!  Structural facts about `killC`. -/

/-- Unfolding of one drive on a fresh root. -/
theorem killC_root (g : Bool) (fuel i : Nat) (acts : List Nat)
    (ts : List Nat) (er : Option Nat) (l : List CTree) :
    killC g (fuel + 1) (.mk i false false false false 0 acts false (some ts) er (some l)) =
    (.mk i true true true true 0 acts g none er none,
      Ev.setFlag i :: (((l.map (killC g fuel)).map Prod.snd).flatten ++
        [Ev.dying i] ++ [Ev.dead i] ++ (if g then acts.map (Ev.act i) else []) ++
        ts.map (Ev.cancelTok i) ++ [Ev.done i])) := by
  cases g <;> simp [killC]

/-- A fresh scope's drive emits its `done` event. -/
theorem done_mem_killC (g : Bool) :
    ∀ (fuel : Nat) (t : CTree), freshB fuel t = true →
      Ev.done t.rootId ∈ (killC g fuel t).2 := by
  intro fuel t hF
  cases fuel with
  | zero => simp [freshB] at hF
  | succ fuel =>
    cases t with
    | mk i isD dg dd dn trk acts aR tc er ch =>
      cases ch with
      | none => simp [freshB] at hF
      | some l =>
        cases tc with
        | none => simp [freshB] at hF
        | some ts =>
          simp [freshB] at hF
          obtain ⟨⟨⟨⟨⟨⟨hisD, hdg⟩, hdd⟩, hdn⟩, htrk⟩, haR⟩, -⟩ := hF
          subst hisD hdg hdd hdn haR htrk
          rw [killC_root]
          simp [CTree.rootId]

/-- A parent scope (id 0) with a single fresh child scope (id 1). -/
def sampleParent : CTree :=
  .mk 0 false false false false 0 [] false (some []) none (some [leafC 1])

/-- C3: the claim asserts that a scope's `dying` event is raised before its
children's shutdown completes.  In the canonical schedule of `Kill` on a
parent with one child, the parent raises `dying` only after the child's
`done`: the trace contains the child's `done` strictly before the parent's
`dying`, and not the other way round. -/
theorem c3_dying_after_children_cex :
    beforeB (killC true 2 sampleParent).2 (Ev.dying 0) (Ev.done 1) = false ∧
    beforeB (killC true 2 sampleParent).2 (Ev.done 1) (Ev.dying 0) = true ∧
    Ev.dying 0 ∈ (killC true 2 sampleParent).2 ∧
    Ev.done 1 ∈ (killC true 2 sampleParent).2 := by
  refine ⟨by decide, by decide, by decide, by decide⟩

/-- C3 (amended): in the shutdown driver, the write that sets the dead
flag happens before every child's `done`, the children's shutdown
completion happens before the raising of the scope's `dying`, `dying`
before `dead`, and `dead` before the scope's `done`.  (The scope raises
`dying` only after it has finished waiting on its children, not before.) -/
theorem c3_amended (g : Bool) (fuel : Nat) (t : CTree)
    (hF : freshB fuel t = true) (c : CTree)
    (hc : c ∈ t.rootChildren.getD []) :
    beforeB (killC g fuel t).2 (Ev.setFlag t.rootId) (Ev.done c.rootId) = true ∧
    beforeB (killC g fuel t).2 (Ev.done c.rootId) (Ev.dying t.rootId) = true ∧
    beforeB (killC g fuel t).2 (Ev.dying t.rootId) (Ev.dead t.rootId) = true ∧
    beforeB (killC g fuel t).2 (Ev.dead t.rootId) (Ev.done t.rootId) = true := by
  cases fuel with
  | zero => simp [freshB] at hF
  | succ fuel =>
    cases t with
    | mk i isD dg dd dn trk acts aR tc er ch =>
      cases ch with
      | none => simp [freshB] at hF
      | some l =>
        cases tc with
        | none => simp [freshB] at hF
        | some ts =>
          simp [freshB] at hF
          obtain ⟨⟨⟨⟨⟨⟨hisD, hdg⟩, hdd⟩, hdn⟩, htrk⟩, haR⟩, hall⟩ := hF
          subst hisD hdg hdd hdn haR htrk
          simp only [CTree.rootChildren, Option.getD_some] at hc
          have htr : (killC g (fuel + 1)
              (.mk i false false false false 0 acts false (some ts) er (some l))).2 =
              Ev.setFlag i :: (((l.map (killC g fuel)).map Prod.snd).flatten ++
                [Ev.dying i] ++ [Ev.dead i] ++
                (if g then acts.map (Ev.act i) else []) ++
                ts.map (Ev.cancelTok i) ++ [Ev.done i]) :=
            congrArg Prod.snd (killC_root g fuel i acts ts er l)
          rw [htr]
          rw [show (CTree.mk i false false false false 0 acts false (some ts)
            er (some l)).rootId = i from rfl]
          have hdone : Ev.done c.rootId ∈
              ((l.map (killC g fuel)).map Prod.snd).flatten := by
            refine List.mem_flatten.mpr ⟨(killC g fuel c).2, ?_, ?_⟩
            · exact List.mem_map.mpr ⟨killC g fuel c,
                List.mem_map.mpr ⟨c, hc, rfl⟩, rfl⟩
            · exact done_mem_killC g fuel c (hall c hc)
          obtain ⟨u, v, huv⟩ := List.append_of_mem hdone
          refine ⟨?_, ?_, ?_, ?_⟩
          · exact beforeB_of_eq []
              (((l.map (killC g fuel)).map Prod.snd).flatten ++
                [Ev.dying i] ++ [Ev.dead i] ++
                (if g then acts.map (Ev.act i) else []) ++
                ts.map (Ev.cancelTok i) ++ [Ev.done i])
              rfl
              (List.mem_append_left _ (List.mem_append_left _
                (List.mem_append_left _ (List.mem_append_left _
                  (List.mem_append_left _ hdone)))))
          · refine beforeB_of_eq (Ev.setFlag i :: u)
              (v ++ [Ev.dying i] ++ [Ev.dead i] ++
                (if g then acts.map (Ev.act i) else []) ++
                ts.map (Ev.cancelTok i) ++ [Ev.done i]) ?_ ?_
            · rw [huv]
              simp only [List.cons_append, List.append_assoc, List.nil_append]
            · exact List.mem_append_left _ (List.mem_append_left _
                (List.mem_append_left _ (List.mem_append_left _
                  (List.mem_append_right _ (List.mem_singleton.mpr rfl)))))
          · refine beforeB_of_eq
              (Ev.setFlag i :: ((l.map (killC g fuel)).map Prod.snd).flatten)
              ([Ev.dead i] ++ (if g then acts.map (Ev.act i) else []) ++
                ts.map (Ev.cancelTok i) ++ [Ev.done i]) ?_ ?_
            · simp only [List.cons_append, List.append_assoc, List.nil_append]
            · exact List.mem_append_left _ (List.mem_append_left _
                (List.mem_append_left _ (List.mem_singleton.mpr rfl)))
          · refine beforeB_of_eq
              (Ev.setFlag i :: (((l.map (killC g fuel)).map Prod.snd).flatten ++
                [Ev.dying i]))
              ((if g then acts.map (Ev.act i) else []) ++
                ts.map (Ev.cancelTok i) ++ [Ev.done i]) ?_ ?_
            · simp only [List.cons_append, List.append_assoc, List.nil_append]
            · exact List.mem_append_right _ (List.mem_singleton.mpr rfl)

/-- A single fresh scope (id 0) with one queued hook (3) and two tracked
contexts (7 and 8). -/
def sampleTok : CTree :=
  .mk 0 false false false false 0 [3] false (some [7, 8]) none (some [])

/-- C9: every context recorded in the tracked-context map is cancelled
before the scope raises `done`; under graceful shutdown every queued hook
runs before any token cancellation begins; and the drive leaves the map
nil. -/
theorem c9_tokens_cancelled_before_done (g : Bool) (fuel : Nat) (t : CTree)
    (hF : freshB fuel t = true) :
    (∀ tok ∈ t.rootTctx.getD [],
      beforeB (killC g fuel t).2 (Ev.cancelTok t.rootId tok)
        (Ev.done t.rootId) = true) ∧
    (∀ a ∈ t.rootActions, ∀ tok ∈ t.rootTctx.getD [],
      beforeB (killC true fuel t).2 (Ev.act t.rootId a)
        (Ev.cancelTok t.rootId tok) = true) ∧
    (killC g fuel t).1.rootTctx = none := by
  cases fuel with
  | zero => simp [freshB] at hF
  | succ fuel =>
    cases t with
    | mk i isD dg dd dn trk acts aR tc er ch =>
      cases ch with
      | none => simp [freshB] at hF
      | some l =>
        cases tc with
        | none => simp [freshB] at hF
        | some ts =>
          simp [freshB] at hF
          obtain ⟨⟨⟨⟨⟨⟨hisD, hdg⟩, hdd⟩, hdn⟩, htrk⟩, haR⟩, -⟩ := hF
          subst hisD hdg hdd hdn haR htrk
          rw [show (CTree.mk i false false false false 0 acts false (some ts)
            er (some l)).rootId = i from rfl]
          rw [show (CTree.mk i false false false false 0 acts false (some ts)
            er (some l)).rootTctx = some ts from rfl]
          rw [show (CTree.mk i false false false false 0 acts false (some ts)
            er (some l)).rootActions = acts from rfl]
          simp only [Option.getD_some]
          refine ⟨?_, ?_, ?_⟩
          · intro tok htok
            rw [congrArg Prod.snd (killC_root g fuel i acts ts er l)]
            have hmem : Ev.cancelTok i tok ∈ ts.map (Ev.cancelTok i) :=
              List.mem_map.mpr ⟨tok, htok, rfl⟩
            obtain ⟨u, v, huv⟩ := List.append_of_mem hmem
            refine beforeB_of_eq
              (Ev.setFlag i :: (((l.map (killC g fuel)).map Prod.snd).flatten ++
                [Ev.dying i] ++ [Ev.dead i] ++
                (if g then acts.map (Ev.act i) else []) ++ u))
              (v ++ [Ev.done i]) ?_ ?_
            · rw [huv]
              simp only [List.cons_append, List.append_assoc, List.nil_append]
            · exact List.mem_append_right _ (List.mem_singleton.mpr rfl)
          · intro a ha tok htok
            rw [congrArg Prod.snd (killC_root true fuel i acts ts er l)]
            obtain ⟨p, q, hpq⟩ := List.append_of_mem ha
            refine beforeB_of_eq
              (Ev.setFlag i :: (((l.map (killC true fuel)).map Prod.snd).flatten ++
                [Ev.dying i] ++ [Ev.dead i] ++ p.map (Ev.act i)))
              (q.map (Ev.act i) ++ ts.map (Ev.cancelTok i) ++ [Ev.done i]) ?_ ?_
            · rw [hpq]
              simp only [if_true, List.map_append, List.map_cons,
                List.cons_append, List.append_assoc, List.nil_append]
            · exact List.mem_append_left _ (List.mem_append_right _
                (List.mem_map.mpr ⟨tok, htok, rfl⟩))
          · rw [congrArg Prod.fst (killC_root g fuel i acts ts er l)]
            rfl

/-- Witness for `c9_tokens_cancelled_before_done` at a concrete scope. -/
theorem c9_tokens_witness :
    freshB 1 sampleTok = true ∧
    ((∀ tok ∈ sampleTok.rootTctx.getD [],
      beforeB (killC false 1 sampleTok).2 (Ev.cancelTok sampleTok.rootId tok)
        (Ev.done sampleTok.rootId) = true) ∧
    (∀ a ∈ sampleTok.rootActions, ∀ tok ∈ sampleTok.rootTctx.getD [],
      beforeB (killC true 1 sampleTok).2 (Ev.act sampleTok.rootId a)
        (Ev.cancelTok sampleTok.rootId tok) = true) ∧
    (killC false 1 sampleTok).1.rootTctx = none) :=
  ⟨by decide, c9_tokens_cancelled_before_done false 1 sampleTok (by decide)⟩

/-- C10: on a fresh scope `ChildCascade` succeeds, but once the shutdown
drive has cleared the child map (which happens before `done` is raised) a
`ChildCascade` call writes into the nil map and faults. -/
theorem c10_child_cascade_after_shutdown (g : Bool) (n fuel : Nat)
    (t : CTree) (hF : freshB fuel t = true) :
    (childCascadeT n t).isSome = true ∧
    childCascadeT n (killC g fuel t).1 = none := by
  cases fuel with
  | zero => simp [freshB] at hF
  | succ fuel =>
    cases t with
    | mk i isD dg dd dn trk acts aR tc er ch =>
      cases ch with
      | none => simp [freshB] at hF
      | some l =>
        cases tc with
        | none => simp [freshB] at hF
        | some ts =>
          simp [freshB] at hF
          obtain ⟨⟨⟨⟨⟨⟨hisD, hdg⟩, hdd⟩, hdn⟩, htrk⟩, haR⟩, -⟩ := hF
          subst hisD hdg hdd hdn haR htrk
          constructor
          · rfl
          · rw [congrArg Prod.fst (killC_root g fuel i acts ts er l)]
            rfl

/-- Witness for `c10_child_cascade_after_shutdown` at a concrete scope. -/
theorem c10_child_cascade_witness :
    freshB 1 (leafC 0) = true ∧
    ((childCascadeT 5 (leafC 0)).isSome = true ∧
      childCascadeT 5 (killC true 1 (leafC 0)).1 = none) :=
  ⟨by decide, c10_child_cascade_after_shutdown true 5 1 (leafC 0) (by decide)⟩

/-- A parent scope (id 0, hook 4, token 9) with one child scope (id 1,
hook 6). -/
def sampleKillTree : CTree :=
  .mk 0 false false false false 0 [4] false (some [9]) none
    (some [.mk 1 false false false false 0 [6] false (some []) none (some [])])

/-- Is the event the execution of a hook of scope `i`? -/
def isActOfB (i : Nat) : Ev → Bool
  | .act s _ => s == i
  | _ => false

@[simp] theorem isAct_setFlag (s : Nat) : isAct (Ev.setFlag s) = false := rfl

@[simp] theorem isAct_dying (s : Nat) : isAct (Ev.dying s) = false := rfl

@[simp] theorem isAct_dead (s : Nat) : isAct (Ev.dead s) = false := rfl

@[simp] theorem isAct_waitDead (s : Nat) : isAct (Ev.waitDead s) = false := rfl

@[simp] theorem isAct_act (s a : Nat) : isAct (Ev.act s a) = true := rfl

@[simp] theorem isAct_cancelTok (s tok : Nat) : isAct (Ev.cancelTok s tok) = false := rfl

@[simp] theorem isAct_setErr (s e : Nat) : isAct (Ev.setErr s e) = false := rfl

@[simp] theorem isAct_done (s : Nat) : isAct (Ev.done s) = false := rfl

@[simp] theorem isActOfB_setFlag (i s : Nat) : isActOfB i (Ev.setFlag s) = false := rfl

@[simp] theorem isActOfB_dying (i s : Nat) : isActOfB i (Ev.dying s) = false := rfl

@[simp] theorem isActOfB_dead (i s : Nat) : isActOfB i (Ev.dead s) = false := rfl

@[simp] theorem isActOfB_waitDead (i s : Nat) : isActOfB i (Ev.waitDead s) = false := rfl

@[simp] theorem isActOfB_act (i s a : Nat) : isActOfB i (Ev.act s a) = (s == i) := rfl

@[simp] theorem isActOfB_cancelTok (i s tok : Nat) :
    isActOfB i (Ev.cancelTok s tok) = false := rfl

@[simp] theorem isActOfB_setErr (i s e : Nat) : isActOfB i (Ev.setErr s e) = false := rfl

@[simp] theorem isActOfB_done (i s : Nat) : isActOfB i (Ev.done s) = false := rfl

theorem isActOfB_scope {i : Nat} {ev : Ev} (h : isActOfB i ev = true) :
    evScope ev = i := by
  cases ev <;> simp [isActOfB] at h <;> simp [evScope, h]

/-- Every event of a drive belongs to a scope of the tree. -/
theorem evScope_mem_ids (g : Bool) : ∀ (fuel : Nat) (t : CTree),
    freshB fuel t = true →
    ∀ ev ∈ (killC g fuel t).2, evScope ev ∈ idsB fuel t := by
  intro fuel
  induction fuel with
  | zero => intro t hF; simp [freshB] at hF
  | succ fuel ih =>
    intro t hF ev hmem
    cases t with
    | mk i isD dg dd dn trk acts aR tc er ch =>
      cases ch with
      | none => simp [freshB] at hF
      | some l =>
        cases tc with
        | none => simp [freshB] at hF
        | some ts =>
          simp [freshB] at hF
          obtain ⟨⟨⟨⟨⟨⟨hisD, hdg⟩, hdd⟩, hdn⟩, htrk⟩, haR⟩, hall⟩ := hF
          subst hisD hdg hdd hdn haR htrk
          rw [congrArg Prod.snd (killC_root g fuel i acts ts er l)] at hmem
          simp only [idsB, Option.getD_some]
          simp only [List.mem_cons, List.mem_append, List.mem_singleton,
            List.not_mem_nil, or_false] at hmem
          rcases hmem with h | (((((h | h) | h) | h) | h) | h)
          · subst h; simp [evScope]
          · -- event of a child trace
            obtain ⟨tr, htr, hev⟩ := List.mem_flatten.mp h
            obtain ⟨pr, hpr, hsnd⟩ := List.mem_map.mp htr
            obtain ⟨c, hcl, hkc⟩ := List.mem_map.mp hpr
            subst hkc; subst hsnd
            have := ih c (hall c hcl) ev hev
            exact List.mem_cons_of_mem _ (List.mem_flatten.mpr
              ⟨idsB fuel c, List.mem_map.mpr ⟨c, hcl, rfl⟩, this⟩)
          · subst h; simp [evScope]
          · subst h; simp [evScope]
          · cases hg : g with
            | false => rw [hg] at h; simp at h
            | true =>
              rw [hg] at h
              simp at h
              obtain ⟨a, -, ha⟩ := h
              subst ha; simp [evScope]
          · obtain ⟨tok, -, htok⟩ := List.mem_map.mp h
            subst htok; simp [evScope]
          · subst h; simp [evScope]

/-- A second drive of a scope whose dead flag is already set emits no
events: `Kill`/`Cancel` after shutdown has begun is a no-op. -/
theorem killC_dead_no_events (g : Bool) (fuel i : Nat)
    (dg dd dn : Bool) (trk : Int) (acts : List Nat) (aR : Bool)
    (tc : Option (List Nat)) (er : Option Nat) (ch : Option (List CTree)) :
    (killC g fuel (.mk i true dg dd dn trk acts aR tc er ch)).2 = [] := by
  cases fuel <;> rfl

/-- `Cancel` executes no hook, on any tree whatsoever. -/
theorem cancel_no_acts : ∀ (fuel : Nat) (t : CTree),
    ((killC false fuel t).2).filter isAct = [] := by
  intro fuel
  induction fuel with
  | zero => intro t; rfl
  | succ fuel ih =>
    intro t
    cases t with
    | mk i isD dg dd dn trk acts aR tc er ch =>
      cases isD with
      | true => rfl
      | false =>
        by_cases htrk : trk = 0 <;>
          cases dg <;> cases dd <;> cases dn <;>
            simp [killC, htrk, List.filter_append, List.filter_cons,
              List.map_map, Function.comp_def, ih, List.filter_map,
              List.flatten_eq_nil_iff, List.filter_false]

/-- `Kill` and `Cancel` perform the identical protocol up to the hook
queue: erasing the hook-execution events from a `Kill` trace yields the
corresponding `Cancel` trace, on any tree whatsoever. -/
theorem kill_cancel_same_protocol : ∀ (fuel : Nat) (t : CTree),
    ((killC true fuel t).2).filter (fun e => !isAct e) = (killC false fuel t).2 := by
  intro fuel
  induction fuel with
  | zero => intro t; rfl
  | succ fuel ih =>
    intro t
    cases t with
    | mk i isD dg dd dn trk acts aR tc er ch =>
      cases isD with
      | true => rfl
      | false =>
        by_cases htrk : trk = 0 <;>
          cases dg <;> cases dd <;> cases dn <;> cases aR <;>
            simp [killC, htrk, List.filter_append, List.filter_cons,
              List.map_map, Function.comp_def, ih, List.filter_map,
              List.filter_false, List.filter_true]

/-- C4: `Cancel` never executes a hook; a graceful `Kill` executes exactly
the queued actions of the scope, once, in order; the two entry points
otherwise perform the identical protocol (the `Cancel` trace is the `Kill`
trace with hook events erased); and a repeated drive is a no-op emitting
no events at all. -/
theorem c4_cancel_skips_hooks_kill_runs_once (g : Bool) (fuel fuel2 : Nat)
    (t : CTree) (hF : freshB fuel t = true)
    (hnd : (idsB fuel t).Nodup) :
    ((killC false fuel t).2).filter isAct = [] ∧
    ((killC true fuel t).2).filter (fun e => !isAct e) = (killC false fuel t).2 ∧
    ((killC true fuel t).2).filter (isActOfB t.rootId) =
      t.rootActions.map (Ev.act t.rootId) ∧
    (killC g fuel2 (killC true fuel t).1).2 = [] := by
  refine ⟨cancel_no_acts fuel t, kill_cancel_same_protocol fuel t, ?_, ?_⟩
  · cases fuel with
    | zero => simp [freshB] at hF
    | succ fuel =>
      cases t with
      | mk i isD dg dd dn trk acts aR tc er ch =>
        cases ch with
        | none => simp [freshB] at hF
        | some l =>
          cases tc with
          | none => simp [freshB] at hF
          | some ts =>
            simp [freshB] at hF
            obtain ⟨⟨⟨⟨⟨⟨hisD, hdg⟩, hdd⟩, hdn⟩, htrk⟩, haR⟩, hall⟩ := hF
            subst hisD hdg hdd hdn haR htrk
            rw [congrArg Prod.snd (killC_root true fuel i acts ts er l)]
            rw [show (CTree.mk i false false false false 0 acts false (some ts)
              er (some l)).rootId = i from rfl]
            rw [show (CTree.mk i false false false false 0 acts false (some ts)
              er (some l)).rootActions = acts from rfl]
            simp only [idsB, Option.getD_some] at hnd
            have hni : i ∉ (l.map (idsB fuel)).flatten :=
              (List.nodup_cons.mp hnd).1
            have hch : ∀ ev ∈ ((l.map (killC true fuel)).map Prod.snd).flatten,
                isActOfB i ev = false := by
              intro ev hev
              cases hb : isActOfB i ev with
              | false => rfl
              | true =>
                exfalso
                obtain ⟨tr, htr, hevtr⟩ := List.mem_flatten.mp hev
                obtain ⟨pr, hpr, hsnd⟩ := List.mem_map.mp htr
                obtain ⟨c, hcl, hkc⟩ := List.mem_map.mp hpr
                subst hkc; subst hsnd
                have hsc := evScope_mem_ids true fuel c (hall c hcl) ev hevtr
                rw [isActOfB_scope hb] at hsc
                exact hni (List.mem_flatten.mpr
                  ⟨idsB fuel c, List.mem_map.mpr ⟨c, hcl, rfl⟩, hsc⟩)
            have hchnil : ((((l.map (killC true fuel)).map Prod.snd).flatten).filter
                (isActOfB i)) = [] :=
              List.filter_eq_nil_iff.mpr
                (by intro ev hev; simp [hch ev hev])
            simp [List.filter_append, hchnil, List.filter_map,
              Function.comp_def, List.filter_true]
            intro c hcl ev hev
            exact hch ev (List.mem_flatten.mpr
              ⟨(killC true fuel c).2, List.mem_map.mpr
                ⟨killC true fuel c, List.mem_map.mpr ⟨c, hcl, rfl⟩, rfl⟩, hev⟩)
  · cases fuel with
    | zero => simp [freshB] at hF
    | succ fuel =>
      cases t with
      | mk i isD dg dd dn trk acts aR tc er ch =>
        cases ch with
        | none => simp [freshB] at hF
        | some l =>
          cases tc with
          | none => simp [freshB] at hF
          | some ts =>
            simp [freshB] at hF
            obtain ⟨⟨⟨⟨⟨⟨hisD, hdg⟩, hdd⟩, hdn⟩, htrk⟩, haR⟩, -⟩ := hF
            subst hisD hdg hdd hdn haR htrk
            rw [congrArg Prod.fst (killC_root true fuel i acts ts er l)]
            exact killC_dead_no_events g fuel2 i true true true 0 acts true
              none er none

/-- Witness for `c4_cancel_skips_hooks_kill_runs_once` at a concrete
two-scope tree with one hook on each scope. -/
theorem c4_cancel_skips_hooks_witness :
    (freshB 2 sampleKillTree = true ∧ (idsB 2 sampleKillTree).Nodup) ∧
    (((killC false 2 sampleKillTree).2).filter isAct = [] ∧
      ((killC true 2 sampleKillTree).2).filter (fun e => !isAct e) =
        (killC false 2 sampleKillTree).2 ∧
      ((killC true 2 sampleKillTree).2).filter (isActOfB sampleKillTree.rootId) =
        sampleKillTree.rootActions.map (Ev.act sampleKillTree.rootId) ∧
      (killC true 2 (killC true 2 sampleKillTree).1).2 = []) :=
  ⟨⟨by decide, by decide⟩,
    c4_cancel_skips_hooks_kill_runs_once true 2 2 sampleKillTree
      (by decide) (by decide)⟩

@[simp] theorem isSetErr_setFlag (s : Nat) : isSetErr (Ev.setFlag s) = false := rfl

@[simp] theorem isSetErr_dying (s : Nat) : isSetErr (Ev.dying s) = false := rfl

@[simp] theorem isSetErr_dead (s : Nat) : isSetErr (Ev.dead s) = false := rfl

@[simp] theorem isSetErr_waitDead (s : Nat) : isSetErr (Ev.waitDead s) = false := rfl

@[simp] theorem isSetErr_act (s a : Nat) : isSetErr (Ev.act s a) = false := rfl

@[simp] theorem isSetErr_cancelTok (s tok : Nat) :
    isSetErr (Ev.cancelTok s tok) = false := rfl

@[simp] theorem isSetErr_setErr (s e : Nat) : isSetErr (Ev.setErr s e) = true := rfl

@[simp] theorem isSetErr_done (s : Nat) : isSetErr (Ev.done s) = false := rfl

/-- Registering hooks only rewrites the action queue, by the fold the
registration sequence induces. -/
theorem applyRegs_shape : ∀ (regs : List Reg) (i : Nat) (acts : List Nat),
    applyRegs (.mk i false false false false 0 acts false (some []) none
      (some [])) regs =
    .mk i false false false false 0
      (regs.foldl (fun l r => match r with
        | .app a => l ++ [a] | .pre a => a :: l) acts)
      false (some []) none (some []) := by
  intro regs
  induction regs with
  | nil => intro i acts; rfl
  | cons r rs ih =>
    intro i acts
    cases r with
    | app a => exact ih i (acts ++ [a])
    | pre a => exact ih i (a :: acts)

/-- C5: for any sequence of `DoOnKill` (append) and `DoFirstOnKill`
(prepend) registrations on a scope, a graceful shutdown executes exactly
the actions in the head-to-tail order the insertions imply; in particular
after append 1, append 2, prepend 3 the execution order is 3, 1, 2. -/
theorem c5_hook_order :
    (∀ regs : List Reg,
      ((killC true 1 (applyRegs (leafC 0) regs)).2).filter isAct =
        (specOrder regs).map (Ev.act 0)) ∧
    ((killC true 1 (applyRegs (leafC 0)
        [Reg.app 1, Reg.app 2, Reg.pre 3])).2).filter isAct =
      [Ev.act 0 3, Ev.act 0 1, Ev.act 0 2] := by
  constructor
  · intro regs
    have h1 : applyRegs (leafC 0) regs =
        .mk 0 false false false false 0 (specOrder regs) false (some [])
          none (some []) := applyRegs_shape regs 0 []
    rw [h1, congrArg Prod.snd (killC_root true 0 0 (specOrder regs) [] none [])]
    simp [List.filter_append, List.filter_map, Function.comp_def,
      List.filter_true]
  · decide

/-- No drive ever writes an error slot: `Kill`/`Cancel` traces contain no
error-write event. -/
theorem killC_no_setErr : ∀ (fuel : Nat) (g : Bool) (t : CTree),
    ((killC g fuel t).2).filter isSetErr = [] := by
  intro fuel
  induction fuel with
  | zero => intro g t; rfl
  | succ fuel ih =>
    intro g t
    cases t with
    | mk i isD dg dd dn trk acts aR tc er ch =>
      cases isD with
      | true => rfl
      | false =>
        by_cases htrk : trk = 0 <;>
          cases dg <;> cases dd <;> cases dn <;> cases g <;> cases aR <;>
            simp [killC, htrk, List.filter_append, List.filter_cons,
              List.map_map, Function.comp_def, ih, List.filter_map,
              List.flatten_eq_nil_iff, List.filter_false]

/-- A drive preserves the error slot of its scope. -/
theorem rootErr_killC : ∀ (fuel : Nat) (g : Bool) (t : CTree),
    (killC g fuel t).1.rootErr = t.rootErr := by
  intro fuel g t
  cases fuel with
  | zero => rfl
  | succ fuel =>
    cases t with
    | mk i isD dg dd dn trk acts aR tc er ch =>
      cases isD with
      | true => rfl
      | false =>
        by_cases htrk : trk = 0 <;> simp [killC, htrk, CTree.rootErr]

theorem rootErr_setRootErr (e : Nat) (t : CTree) :
    (setRootErr e t).rootErr = some e := by
  cases t; rfl

theorem rootId_setRootErr (e : Nat) (t : CTree) :
    (setRootErr e t).rootId = t.rootId := by
  cases t; rfl

/-- `KillAll`/`CancelAll` act at the root of the parent chain. -/
theorem killAllC_eq_killC : ∀ (anc : List PCtx) (c : CTree) (g : Bool)
    (fuel : Nat), killAllC g fuel anc c = killC g fuel (plugChain anc c) := by
  intro anc
  induction anc with
  | nil => intro c g fuel; rfl
  | cons k ks ih => intro c g fuel; exact ih (plug k c) g fuel

theorem killAllWithErrorC_eq : ∀ (anc : List PCtx) (c : CTree) (g : Bool)
    (e fuel : Nat),
    killAllWithErrorC g e fuel anc c =
      ((killWithErrorC g e fuel (plugChain anc c)).1,
        (killWithErrorC g e fuel (plugChain anc c)).2.1) := by
  intro anc
  induction anc with
  | nil => intro c g e fuel; rfl
  | cons k ks ih => intro c g e fuel; exact ih (plug k c) g e fuel

/-- C8: tree-wide entry points walk the parent links to the root and act
there (`killAllC` equals a plain drive of the root, acting locally when the
chain is empty); the `_with_error` variants store the error on the root
scope only — the sole error-write event of the whole operation names the
root, so every other scope's error slot is untouched. -/
theorem c8_tree_entry_points_act_at_root (g : Bool) (e fuel : Nat)
    (anc : List PCtx) (c : CTree)
    (hnone : (plugChain anc c).rootErr = none) :
    killAllC g fuel anc c = killC g fuel (plugChain anc c) ∧
    (killAllWithErrorC g e fuel anc c).1.rootErr = some e ∧
    (∀ ev ∈ (killAllWithErrorC g e fuel anc c).2, isSetErr ev = true →
      ev = Ev.setErr (plugChain anc c).rootId e) := by
  refine ⟨killAllC_eq_killC anc c g fuel, ?_, ?_⟩
  · rw [killAllWithErrorC_eq]
    simp only [killWithErrorC, hnone]
    rw [rootErr_killC]
    exact rootErr_setRootErr e (plugChain anc c)
  · intro ev hev htrue
    rw [killAllWithErrorC_eq] at hev
    simp only [killWithErrorC, hnone] at hev
    rcases List.mem_cons.mp hev with h | h
    · exact h
    · exfalso
      have hnil := killC_no_setErr fuel g (setRootErr e (plugChain anc c))
      have hmemf : ev ∈
          ((killC g fuel (setRootErr e (plugChain anc c))).2).filter isSetErr :=
        List.mem_filter.mpr ⟨h, htrue⟩
      rw [hnil] at hmemf
      exact absurd hmemf (List.not_mem_nil ev)

/-- A fresh middle ancestor (scope 1) context. -/
def pctxMid : PCtx :=
  ⟨1, false, false, false, false, 0, [], false, some [], none, [], []⟩

/-- A fresh root ancestor (scope 0) context. -/
def pctxRoot : PCtx :=
  ⟨0, false, false, false, false, 0, [], false, some [], none, [], []⟩

/-- Witness for `c8_tree_entry_points_act_at_root`: `KillAllWithError`
called on the grandchild (scope 2) of a three-scope chain. -/
theorem c8_tree_entry_points_witness :
    (plugChain [pctxMid, pctxRoot] (leafC 2)).rootErr = none ∧
    (killAllC true 3 [pctxMid, pctxRoot] (leafC 2) =
        killC true 3 (plugChain [pctxMid, pctxRoot] (leafC 2)) ∧
      (killAllWithErrorC true 7 3 [pctxMid, pctxRoot] (leafC 2)).1.rootErr =
        some 7 ∧
      (∀ ev ∈ (killAllWithErrorC true 7 3 [pctxMid, pctxRoot] (leafC 2)).2,
        isSetErr ev = true →
        ev = Ev.setErr (plugChain [pctxMid, pctxRoot] (leafC 2)).rootId 7)) :=
  ⟨rfl, c8_tree_entry_points_act_at_root true 7 3 [pctxMid, pctxRoot]
    (leafC 2) rfl⟩

/-- A scope whose error slot is already occupied (error 9). -/
def errLeaf : CTree :=
  .mk 0 false false false false 0 [] false (some []) (some 9) (some [])

/-- C6: `KillWithError`/`CancelWithError` on a scope whose error slot is
occupied return the already-set error and do not drive shutdown (state and
trace unchanged); but `KillAllWithError`/`CancelAllWithError` have no
return value, so the same failure is silently discarded — the caller
cannot observe it.  On an empty slot the error is stored, shutdown is
driven, and `Error()` returns the stored value. -/
theorem c6_all_with_error_discards_failure :
    killWithErrorC true 1 1 errLeaf = (errLeaf, [], true) ∧
    killWithErrorC false 1 1 errLeaf = (errLeaf, [], true) ∧
    killAllWithErrorC true 1 1 [] errLeaf = (errLeaf, []) ∧
    killAllWithErrorC false 1 1 [] errLeaf = (errLeaf, []) ∧
    (killWithErrorC true 5 1 (leafC 0)).1.rootErr = some 5 ∧
    (killWithErrorC true 5 1 (leafC 0)).2.2 = false ∧
    (killWithErrorC true 5 1 (leafC 0)).2.1 =
      [Ev.setErr 0 5, Ev.setFlag 0, Ev.dying 0, Ev.dead 0, Ev.done 0] :=
  ⟨rfl, rfl, rfl, rfl, rfl, rfl, rfl⟩

/-- Witness for `c3_amended` at a concrete two-scope tree. -/
theorem c3_amended_witness :
    (freshB 2 sampleParent = true ∧
      leafC 1 ∈ sampleParent.rootChildren.getD []) ∧
    (beforeB (killC true 2 sampleParent).2 (Ev.setFlag sampleParent.rootId)
        (Ev.done (leafC 1).rootId) = true ∧
      beforeB (killC true 2 sampleParent).2 (Ev.done (leafC 1).rootId)
        (Ev.dying sampleParent.rootId) = true ∧
      beforeB (killC true 2 sampleParent).2 (Ev.dying sampleParent.rootId)
        (Ev.dead sampleParent.rootId) = true ∧
      beforeB (killC true 2 sampleParent).2 (Ev.dead sampleParent.rootId)
        (Ev.done sampleParent.rootId) = true) :=
  ⟨⟨by decide, by simp [sampleParent, CTree.rootChildren]⟩,
    c3_amended true 2 sampleParent (by decide) (leafC 1)
      (by simp [sampleParent, CTree.rootChildren])⟩

/-!  Model B: monotonicity of the phase flags. -/

/-- The four latched flags of `a` are below those of `b`: a phase that has
fired never unfires. -/
def flagsLe (a b : ScopeSt) : Prop :=
  (a.isDead = true → b.isDead = true) ∧ (a.dying = true → b.dying = true) ∧
  (a.dead = true → b.dead = true) ∧ (a.done = true → b.done = true)

theorem flagsLe_refl (a : ScopeSt) : flagsLe a a :=
  ⟨fun h => h, fun h => h, fun h => h, fun h => h⟩

theorem flagsLe_trans {a b c : ScopeSt} (h1 : flagsLe a b) (h2 : flagsLe b c) :
    flagsLe a c :=
  ⟨fun h => h2.1 (h1.1 h), fun h => h2.2.1 (h1.2.1 h),
    fun h => h2.2.2.1 (h1.2.2.1 h), fun h => h2.2.2.2 (h1.2.2.2 h)⟩

theorem setScope_flagsLe {f : Nat → ScopeSt} {s0 : Nat} {v : ScopeSt}
    (h : flagsLe (f s0) v) (s : Nat) : flagsLe (f s) (setScope f s0 v s) := by
  unfold setScope
  by_cases hs : s = s0
  · subst hs; simp only [if_pos rfl]; exact h
  · simp only [if_neg hs]; exact flagsLe_refl _

theorem flagsLe_update_children (sc : ScopeSt) (ch : Option (List Nat)) :
    flagsLe sc { sc with children := ch } :=
  ⟨fun h => h, fun h => h, fun h => h, fun h => h⟩

theorem flagsLe_update_tctx (sc : ScopeSt) (tc : Option (List Nat)) :
    flagsLe sc { sc with tctx := tc } :=
  ⟨fun h => h, fun h => h, fun h => h, fun h => h⟩

theorem flagsLe_update_aRun (sc : ScopeSt) (b : Bool) :
    flagsLe sc { sc with aRun := b } :=
  ⟨fun h => h, fun h => h, fun h => h, fun h => h⟩

theorem flagsLe_update_tracked (sc : ScopeSt) (n : Int) :
    flagsLe sc { sc with tracked := n } :=
  ⟨fun h => h, fun h => h, fun h => h, fun h => h⟩

theorem flagsLe_set_isDead (sc : ScopeSt) :
    flagsLe sc { sc with isDead := true } :=
  ⟨fun _ => rfl, fun h => h, fun h => h, fun h => h⟩

theorem flagsLe_set_dying (sc : ScopeSt) :
    flagsLe sc { sc with dying := true } :=
  ⟨fun h => h, fun _ => rfl, fun h => h, fun h => h⟩

theorem flagsLe_set_dead (sc : ScopeSt) :
    flagsLe sc { sc with dead := true } :=
  ⟨fun h => h, fun h => h, fun _ => rfl, fun h => h⟩

theorem flagsLe_set_done (sc : ScopeSt) :
    flagsLe sc { sc with done := true } :=
  ⟨fun h => h, fun h => h, fun h => h, fun _ => rfl⟩

/-- Every step of the machine only raises flags, never lowers them. -/
theorem step_mono (cfg : Config) (tid : Nat) (s : Nat) :
    flagsLe (cfg.scopes s) ((step cfg tid).scopes s) := by
  unfold step
  cases hget : cfg.threads.get? tid with
  | none => exact flagsLe_refl _
  | some th =>
    obtain ⟨pc, ntf, wg⟩ := th
    dsimp only
    unfold stepThread
    cases pc with
    | cas g s' =>
      dsimp only
      split
      · exact flagsLe_refl _
      · exact setScope_flagsLe (flagsLe_set_isDead _) s
    | fanout g s' => dsimp only; exact flagsLe_refl _
    | wgWait g s' =>
      dsimp only
      split <;> exact flagsLe_refl _
    | ccClear g s' =>
      dsimp only
      exact setScope_flagsLe (flagsLe_update_children _ _) s
    | ccDying g s' =>
      dsimp only
      exact setScope_flagsLe (flagsLe_set_dying _) s
    | ccGate g s' =>
      dsimp only
      split
      · exact setScope_flagsLe (flagsLe_set_dead _) s
      · exact flagsLe_refl _
    | ccWaitDead g s' =>
      dsimp only
      split <;> exact flagsLe_refl _
    | ccActions g s' =>
      dsimp only
      exact setScope_flagsLe (flagsLe_update_aRun _ _) s
    | ccCancelCtx g s' =>
      dsimp only
      exact setScope_flagsLe (flagsLe_update_tctx _ _) s
    | ccRemove g s' =>
      dsimp only
      split
      · exact flagsLe_refl _
      · exact setScope_flagsLe (flagsLe_update_children _ _) s
    | ccDone g s' =>
      dsimp only
      exact setScope_flagsLe (flagsLe_set_done _) s
    | retire =>
      dsimp only
      split <;> exact flagsLe_refl _
    | unmarkDec s' =>
      dsimp only
      exact setScope_flagsLe (flagsLe_update_tracked _ _) s
    | unmarkChk s' =>
      dsimp only
      split <;> exact flagsLe_refl _
    | unmarkGate s' =>
      dsimp only
      split
      · exact setScope_flagsLe (flagsLe_set_dead _) s
      · exact flagsLe_refl _
    | markInc s' =>
      dsimp only
      exact setScope_flagsLe (flagsLe_update_tracked _ _) s
    | markChk s' =>
      dsimp only
      split <;> exact flagsLe_refl _
    | markGate s' =>
      dsimp only
      split
      · exact setScope_flagsLe (flagsLe_set_dead _) s
      · exact flagsLe_refl _
    | finished => dsimp only; exact flagsLe_refl _

/-- Flags only go up along a whole schedule. -/
theorem run_mono (sch : List Nat) : ∀ (cfg : Config) (s : Nat),
    flagsLe (cfg.scopes s) ((run cfg sch).scopes s) := by
  induction sch with
  | nil => intro cfg s; exact flagsLe_refl _
  | cons tid sch ih =>
    intro cfg s
    exact flagsLe_trans (step_mono cfg tid s) (ih (step cfg tid) s)

/-!  Model B: the inductive invariant. -/

/-- Obligations attached to a thread's program counter: a thread inside
the drive body has already set `isDead`; past `ccDying` it has raised
`dying`; past the gate it has seen `dead` raised; a `Mark`/`UnMark` thread
at its gate has already observed `isDead`. -/
def pcOk (f : Nat → ScopeSt) : PC → Prop
  | .fanout _ s => (f s).isDead = true
  | .wgWait _ s => (f s).isDead = true
  | .ccClear _ s => (f s).isDead = true
  | .ccDying _ s => (f s).isDead = true
  | .ccGate _ s => (f s).isDead = true ∧ (f s).dying = true
  | .ccWaitDead _ s => (f s).isDead = true ∧ (f s).dying = true
  | .ccActions _ s => (f s).isDead = true ∧ (f s).dying = true ∧ (f s).dead = true
  | .ccCancelCtx _ s => (f s).isDead = true ∧ (f s).dying = true ∧ (f s).dead = true
  | .ccRemove _ s => (f s).isDead = true ∧ (f s).dying = true ∧ (f s).dead = true
  | .ccDone _ s => (f s).isDead = true ∧ (f s).dying = true ∧ (f s).dead = true
  | .unmarkGate s => (f s).isDead = true
  | .markGate s => (f s).isDead = true
  | _ => True

/-- Per-scope phase invariant: `dying` and `dead` imply the dead flag, and
`done` implies both `dead` and `dying`. -/
def scInv (sc : ScopeSt) : Prop :=
  (sc.dying = true → sc.isDead = true) ∧
  (sc.dead = true → sc.isDead = true) ∧
  (sc.done = true → sc.dead = true ∧ sc.dying = true)

/-- The inductive invariant of the machine. -/
def Inv (cfg : Config) : Prop :=
  (∀ s, scInv (cfg.scopes s)) ∧ (∀ th ∈ cfg.threads, pcOk cfg.scopes th.pc)

theorem pcOk_mono {f f' : Nat → ScopeSt}
    (h : ∀ s, flagsLe (f s) (f' s)) (pc : PC) (hpc : pcOk f pc) :
    pcOk f' pc := by
  cases pc <;> simp only [pcOk] at hpc ⊢ <;>
    first
    | trivial
    | exact (h _).1 hpc
    | exact ⟨(h _).1 hpc.1, (h _).2.1 hpc.2⟩
    | exact ⟨(h _).1 hpc.1, (h _).2.1 hpc.2.1, (h _).2.2.1 hpc.2.2⟩

theorem wfinit_inv {cfg : Config} (h : WFInit cfg) : Inv cfg := by
  obtain ⟨hs, hth⟩ := h
  refine ⟨?_, ?_⟩
  · intro s
    obtain ⟨h1, h2, h3, h4⟩ := hs s
    exact ⟨fun hx => absurd hx (by simp [h1]),
      fun hx => absurd hx (by simp [h2]),
      fun hx => absurd hx (by simp [h3])⟩
  · intro th hmem
    have := (hth th hmem).1
    cases hpc : th.pc <;> rw [hpc] at this <;>
      first
      | exact trivial
      | simp [entryPC] at this
      | simp [pcOk]

theorem threads_set_ok {cfg : Config} {scopes' : Nat → ScopeSt}
    (hmono : ∀ s, flagsLe (cfg.scopes s) (scopes' s))
    (hth : ∀ th ∈ cfg.threads, pcOk cfg.scopes th.pc)
    {tid : Nat} {v : ThreadSt} (hv : pcOk scopes' v.pc) :
    ∀ th' ∈ cfg.threads.set tid v, pcOk scopes' th'.pc := by
  intro th' hmem
  rcases List.mem_or_eq_of_mem_set hmem with hold | hnew
  · exact pcOk_mono hmono _ (hth th' hold)
  · subst hnew; exact hv

theorem scInv_setScope {f : Nat → ScopeSt} (hsc : ∀ s, scInv (f s))
    {s0 : Nat} {v : ScopeSt} (hv : scInv v) :
    ∀ s, scInv (setScope f s0 v s) := by
  intro s
  unfold setScope
  by_cases hs : s = s0
  · simp only [if_pos hs]; exact hv
  · simp only [if_neg hs]; exact hsc s

/-- One step preserves the invariant. -/
theorem inv_step (cfg : Config) (tid : Nat) (h : Inv cfg) :
    Inv (step cfg tid) := by
  obtain ⟨hsc, hth⟩ := h
  unfold step
  cases hget : cfg.threads.get? tid with
  | none => exact ⟨hsc, hth⟩
  | some th =>
    have hthm : th ∈ cfg.threads := List.get?_mem hget
    have hpcfull := hth th hthm
    obtain ⟨pc, ntf, wg⟩ := th
    dsimp only
    unfold stepThread
    cases pc with
    | cas g s' =>
      dsimp only
      split
      · exact ⟨hsc, threads_set_ok (fun s => flagsLe_refl _) hth trivial⟩
      · refine ⟨scInv_setScope hsc ?_, threads_set_ok
            (fun s => setScope_flagsLe (flagsLe_set_isDead _) s) hth ?_⟩
        · exact ⟨fun _ => rfl, fun _ => rfl, (hsc s').2.2⟩
        · simp [pcOk, setScope]
    | fanout g s' =>
      dsimp only
      refine ⟨hsc, ?_⟩
      intro th' hmem
      rcases List.mem_append.mp hmem with hl | hr
      · rcases List.mem_or_eq_of_mem_set hl with hold | hnew
        · exact hth th' hold
        · subst hnew; exact hpcfull
      · obtain ⟨k, hk, hth'⟩ := List.mem_map.mp hr
        subst hth'
        trivial
    | wgWait g s' =>
      dsimp only
      split
      · exact ⟨hsc, threads_set_ok (fun s => flagsLe_refl _) hth hpcfull⟩
      · exact ⟨hsc, hth⟩
    | ccClear g s' =>
      dsimp only
      refine ⟨scInv_setScope hsc (hsc s'), threads_set_ok
          (fun s => setScope_flagsLe (flagsLe_update_children _ _) s) hth ?_⟩
      simp only [pcOk] at hpcfull ⊢
      simp [setScope, hpcfull]
    | ccDying g s' =>
      dsimp only
      simp only [pcOk] at hpcfull
      refine ⟨scInv_setScope hsc ?_, threads_set_ok
          (fun s => setScope_flagsLe (flagsLe_set_dying _) s) hth ?_⟩
      · exact ⟨fun _ => hpcfull, (hsc s').2.1, fun hd => ⟨((hsc s').2.2 hd).1, rfl⟩⟩
      · constructor <;> simp [setScope, hpcfull]
    | ccGate g s' =>
      dsimp only
      simp only [pcOk] at hpcfull
      split
      · refine ⟨scInv_setScope hsc ?_, threads_set_ok
            (fun s => setScope_flagsLe (flagsLe_set_dead _) s) hth ?_⟩
        · exact ⟨fun _ => hpcfull.1, fun _ => hpcfull.1,
            fun hd => ⟨rfl, ((hsc s').2.2 hd).2⟩⟩
        · refine ⟨?_, ?_, ?_⟩ <;> simp [setScope, hpcfull.1, hpcfull.2]
      · exact ⟨hsc, threads_set_ok (fun s => flagsLe_refl _) hth hpcfull⟩
    | ccWaitDead g s' =>
      dsimp only
      simp only [pcOk] at hpcfull
      split
      · rename_i hdead
        exact ⟨hsc, threads_set_ok (fun s => flagsLe_refl _) hth
          ⟨hpcfull.1, hpcfull.2, hdead⟩⟩
      · exact ⟨hsc, hth⟩
    | ccActions g s' =>
      dsimp only
      simp only [pcOk] at hpcfull
      refine ⟨scInv_setScope hsc (hsc s'), threads_set_ok
          (fun s => setScope_flagsLe (flagsLe_update_aRun _ _) s) hth ?_⟩
      refine ⟨?_, ?_, ?_⟩ <;>
        simp [setScope, hpcfull.1, hpcfull.2.1, hpcfull.2.2]
    | ccCancelCtx g s' =>
      dsimp only
      simp only [pcOk] at hpcfull
      refine ⟨scInv_setScope hsc (hsc s'), threads_set_ok
          (fun s => setScope_flagsLe (flagsLe_update_tctx _ _) s) hth ?_⟩
      refine ⟨?_, ?_, ?_⟩ <;>
        simp [setScope, hpcfull.1, hpcfull.2.1, hpcfull.2.2]
    | ccRemove g s' =>
      dsimp only
      simp only [pcOk] at hpcfull
      split
      · exact ⟨hsc, threads_set_ok (fun s => flagsLe_refl _) hth hpcfull⟩
      · refine ⟨scInv_setScope hsc (hsc _), threads_set_ok
            (fun s => setScope_flagsLe (flagsLe_update_children _ _) s) hth
            (pcOk_mono (fun s => setScope_flagsLe (flagsLe_update_children _ _) s)
              (PC.ccDone g s') hpcfull)⟩
    | ccDone g s' =>
      dsimp only
      simp only [pcOk] at hpcfull
      refine ⟨scInv_setScope hsc ?_, threads_set_ok
          (fun s => setScope_flagsLe (flagsLe_set_done _) s) hth trivial⟩
      exact ⟨(hsc s').1, (hsc s').2.1, fun _ => ⟨hpcfull.2.2, hpcfull.2.1⟩⟩
    | retire =>
      dsimp only
      cases ntf with
      | none =>
        exact ⟨hsc, threads_set_ok (fun s => flagsLe_refl _) hth trivial⟩
      | some ptid =>
        dsimp only
        refine ⟨hsc, ?_⟩
        intro th' hmem
        rcases List.mem_or_eq_of_mem_set hmem with hold | hnew
        · rcases hgp : cfg.threads.get? ptid with _ | pth
          · rw [hgp] at hold
            exact hth th' hold
          · rw [hgp] at hold
            rcases List.mem_or_eq_of_mem_set hold with hold2 | hnew2
            · exact hth th' hold2
            · subst hnew2
              exact hth pth (List.get?_mem hgp)
        · subst hnew
          trivial
    | unmarkDec s' =>
      dsimp only
      exact ⟨scInv_setScope hsc (hsc s'), threads_set_ok
        (fun s => setScope_flagsLe (flagsLe_update_tracked _ _) s) hth trivial⟩
    | unmarkChk s' =>
      dsimp only
      split
      · rename_i hd
        exact ⟨hsc, threads_set_ok (fun s => flagsLe_refl _) hth hd⟩
      · exact ⟨hsc, threads_set_ok (fun s => flagsLe_refl _) hth trivial⟩
    | unmarkGate s' =>
      dsimp only
      simp only [pcOk] at hpcfull
      split
      · refine ⟨scInv_setScope hsc ?_, threads_set_ok
            (fun s => setScope_flagsLe (flagsLe_set_dead _) s) hth trivial⟩
        exact ⟨fun _ => hpcfull, fun _ => hpcfull,
          fun hd => ⟨rfl, ((hsc s').2.2 hd).2⟩⟩
      · exact ⟨hsc, threads_set_ok (fun s => flagsLe_refl _) hth trivial⟩
    | markInc s' =>
      dsimp only
      exact ⟨scInv_setScope hsc (hsc s'), threads_set_ok
        (fun s => setScope_flagsLe (flagsLe_update_tracked _ _) s) hth trivial⟩
    | markChk s' =>
      dsimp only
      split
      · rename_i hd
        exact ⟨hsc, threads_set_ok (fun s => flagsLe_refl _) hth hd⟩
      · exact ⟨hsc, threads_set_ok (fun s => flagsLe_refl _) hth trivial⟩
    | markGate s' =>
      dsimp only
      simp only [pcOk] at hpcfull
      split
      · refine ⟨scInv_setScope hsc ?_, threads_set_ok
            (fun s => setScope_flagsLe (flagsLe_set_dead _) s) hth trivial⟩
        exact ⟨fun _ => hpcfull, fun _ => hpcfull,
          fun hd => ⟨rfl, ((hsc s').2.2 hd).2⟩⟩
      · exact ⟨hsc, threads_set_ok (fun s => flagsLe_refl _) hth trivial⟩
    | finished => exact ⟨hsc, hth⟩

/-- The invariant holds after every schedule from a wellformed start. -/
theorem inv_run (sch : List Nat) : ∀ cfg : Config, Inv cfg →
    Inv (run cfg sch) := by
  induction sch with
  | nil => intro cfg h; exact h
  | cons tid sch ih => intro cfg h; exact ih (step cfg tid) (inv_step cfg tid h)

/-- Any step that raises `dead` on a scope does so with `tracked = 0` and
the dead flag already set: the only dead-raising steps are the gate of
`closeAndClean` and the gates of `Mark`/`UnMark`, all guarded by
`tracked == 0` and reachable only after `isDead` was observed. -/
theorem dead_raise_gate (cfg : Config) (hInv : Inv cfg) (tid s : Nat)
    (h0 : (cfg.scopes s).dead = false)
    (h1 : ((step cfg tid).scopes s).dead = true) :
    (cfg.scopes s).tracked = 0 ∧ (cfg.scopes s).isDead = true := by
  obtain ⟨hsc, hth⟩ := hInv
  unfold step at h1
  rcases hget : cfg.threads.get? tid with _ | th
  · rw [hget] at h1
    simp [h0] at h1
  · rw [hget] at h1
    have hthm : th ∈ cfg.threads := List.get?_mem hget
    have hpcfull := hth th hthm
    obtain ⟨pc, ntf, wg⟩ := th
    dsimp only at h1
    unfold stepThread at h1
    cases pc with
    | cas g s' =>
      dsimp only at h1
      split at h1
      · simp [h0] at h1
      · by_cases hs : s = s'
        · subst hs; simp [setScope, h0] at h1
        · simp [setScope, hs, h0] at h1
    | fanout g s' =>
      dsimp only at h1
      simp [h0] at h1
    | wgWait g s' =>
      dsimp only at h1
      split at h1 <;> simp [h0] at h1
    | ccClear g s' =>
      dsimp only at h1
      by_cases hs : s = s'
      · subst hs; simp [setScope, h0] at h1
      · simp [setScope, hs, h0] at h1
    | ccDying g s' =>
      dsimp only at h1
      by_cases hs : s = s'
      · subst hs; simp [setScope, h0] at h1
      · simp [setScope, hs, h0] at h1
    | ccGate g s' =>
      dsimp only at h1
      split at h1
      · rename_i htrk
        by_cases hs : s = s'
        · subst hs
          simp only [pcOk] at hpcfull
          exact ⟨htrk, hpcfull.1⟩
        · simp [setScope, hs, h0] at h1
      · simp [h0] at h1
    | ccWaitDead g s' =>
      dsimp only at h1
      split at h1 <;> simp [h0] at h1
    | ccActions g s' =>
      dsimp only at h1
      by_cases hs : s = s'
      · subst hs; simp [setScope, h0] at h1
      · simp [setScope, hs, h0] at h1
    | ccCancelCtx g s' =>
      dsimp only at h1
      by_cases hs : s = s'
      · subst hs; simp [setScope, h0] at h1
      · simp [setScope, hs, h0] at h1
    | ccRemove g s' =>
      dsimp only at h1
      split at h1
      · simp [h0] at h1
      · rename_i p hp
        by_cases hs : s = p
        · subst hs; simp [setScope, h0] at h1
        · simp [setScope, hs, h0] at h1
    | ccDone g s' =>
      dsimp only at h1
      by_cases hs : s = s'
      · subst hs; simp [setScope, h0] at h1
      · simp [setScope, hs, h0] at h1
    | retire =>
      dsimp only at h1
      cases ntf with
      | none => simp [h0] at h1
      | some ptid =>
        dsimp only at h1
        simp [h0] at h1
    | unmarkDec s' =>
      dsimp only at h1
      by_cases hs : s = s'
      · subst hs; simp [setScope, h0] at h1
      · simp [setScope, hs, h0] at h1
    | unmarkChk s' =>
      dsimp only at h1
      split at h1 <;> simp [h0] at h1
    | unmarkGate s' =>
      dsimp only at h1
      split at h1
      · rename_i htrk
        by_cases hs : s = s'
        · subst hs
          simp only [pcOk] at hpcfull
          exact ⟨htrk, hpcfull⟩
        · simp [setScope, hs, h0] at h1
      · simp [h0] at h1
    | markInc s' =>
      dsimp only at h1
      by_cases hs : s = s'
      · subst hs; simp [setScope, h0] at h1
      · simp [setScope, hs, h0] at h1
    | markChk s' =>
      dsimp only at h1
      split at h1 <;> simp [h0] at h1
    | markGate s' =>
      dsimp only at h1
      split at h1
      · rename_i htrk
        by_cases hs : s = s'
        · subst hs
          simp only [pcOk] at hpcfull
          exact ⟨htrk, hpcfull⟩
        · simp [setScope, hs, h0] at h1
      · simp [h0] at h1
    | finished => simp [h0] at h1

/-- C2 (amended): in every schedule from a wellformed start, `done` is
raised only after both `dead` and `dying`; `dead` implies the dead flag;
and any step that raises `dead` does so at an instant where `tracked = 0`
and the dead flag is set.  (`dying` itself may still be unraised at that
instant when an `UnMark` races the driver — see the counterexample.) -/
theorem c2_amended (cfg0 : Config) (sch : List Nat) (hWF : WFInit cfg0) :
    (∀ s, ((run cfg0 sch).scopes s).done = true →
      ((run cfg0 sch).scopes s).dead = true ∧
        ((run cfg0 sch).scopes s).dying = true) ∧
    (∀ s, ((run cfg0 sch).scopes s).dead = true →
      ((run cfg0 sch).scopes s).isDead = true) ∧
    (∀ tid s, ((run cfg0 sch).scopes s).dead = false →
      ((step (run cfg0 sch) tid).scopes s).dead = true →
      ((run cfg0 sch).scopes s).tracked = 0 ∧
        ((run cfg0 sch).scopes s).isDead = true) := by
  have hinv := inv_run sch cfg0 (wfinit_inv hWF)
  exact ⟨fun s hdn => (hinv.1 s).2.2 hdn,
    fun s hdd => (hinv.1 s).2.1 hdd,
    fun tid s h0 h1 => dead_raise_gate _ hinv tid s h0 h1⟩

/-- Witness for `c2_amended` at the concrete two-thread configuration. -/
theorem c2_amended_witness :
    WFInit cfgRace2 ∧
    ((∀ s, ((run cfgRace2 schRace2).scopes s).done = true →
      ((run cfgRace2 schRace2).scopes s).dead = true ∧
        ((run cfgRace2 schRace2).scopes s).dying = true) ∧
    (∀ s, ((run cfgRace2 schRace2).scopes s).dead = true →
      ((run cfgRace2 schRace2).scopes s).isDead = true) ∧
    (∀ tid s, ((run cfgRace2 schRace2).scopes s).dead = false →
      ((step (run cfgRace2 schRace2) tid).scopes s).dead = true →
      ((run cfgRace2 schRace2).scopes s).tracked = 0 ∧
        ((run cfgRace2 schRace2).scopes s).isDead = true)) := by
  have hwf : WFInit cfgRace2 := by
    constructor
    · intro s
      by_cases h : s = 0 <;> simp [cfgRace2, mkScope, h]
    · intro th hmem
      simp [cfgRace2] at hmem
      rcases hmem with h | h <;> subst h <;> exact ⟨trivial, rfl, rfl⟩
  exact ⟨hwf, c2_amended cfgRace2 schRace2 hwf⟩

/-- Thread `tid` is poised to perform the successful false-to-true
transition of the test-and-set on scope `s`. -/
def CasSucc (cfg : Config) (tid s : Nat) : Prop :=
  ∃ th g, cfg.threads.get? tid = some th ∧ th.pc = PC.cas g s ∧
    (cfg.scopes s).isDead = false

/-- C7 (amended): the test-and-set on the dead flag admits at most one
winner — once some thread has performed the false-to-true transition on a
scope, no later thread in any schedule can perform it again; and a
`Kill`/`Cancel` call that observes the flag already set returns
immediately (two steps: the failed test-and-set and the return), without
touching any scope and without waiting for `done`. -/
theorem c7_amended :
    (∀ (cfg : Config) (t1 s : Nat), CasSucc cfg t1 s →
      ∀ (sch : List Nat) (t2 : Nat), ¬ CasSucc (run (step cfg t1) sch) t2 s) ∧
    (∀ (cfg : Config) (tid : Nat) (th : ThreadSt) (g : Bool) (s : Nat),
      cfg.threads.get? tid = some th → th.pc = PC.cas g s →
      th.notify = none → (cfg.scopes s).isDead = true →
      (step (step cfg tid) tid).threads.get? tid =
        some ⟨PC.finished, none, th.wg⟩ ∧
      ∀ s', (step (step cfg tid) tid).scopes s' = cfg.scopes s') := by
  constructor
  · intro cfg t1 s hcs sch t2 hcs2
    obtain ⟨th, g, hget, hpc, hdead⟩ := hcs
    obtain ⟨pc, ntf, wg⟩ := th
    dsimp only at hpc
    subst hpc
    have hstep : ((step cfg t1).scopes s).isDead = true := by
      unfold step
      rw [hget]
      unfold stepThread
      dsimp only
      simp [hdead, setScope]
    have hrun : ((run (step cfg t1) sch).scopes s).isDead = true :=
      (run_mono sch (step cfg t1) s).1 hstep
    obtain ⟨th2, g2, hget2, hpc2, hdead2⟩ := hcs2
    rw [hrun] at hdead2
    simp at hdead2
  · intro cfg tid th g s hget hpc hntf hdd
    obtain ⟨pc, ntf, wg⟩ := th
    dsimp only at hpc hntf
    subst hpc
    subst hntf
    obtain ⟨hlt, -⟩ := List.get?_eq_some.mp hget
    have h1 : step cfg tid =
        { cfg with threads := cfg.threads.set tid ⟨PC.retire, none, wg⟩ } := by
      unfold step
      rw [hget]
      unfold stepThread
      dsimp only
      simp [hdd]
    rw [h1]
    have hget2 : ({ cfg with threads := cfg.threads.set tid ⟨PC.retire, none, wg⟩ } : Config).threads.get? tid = some ⟨PC.retire, none, wg⟩ := by
      dsimp only
      exact List.get?_set_eq_of_lt _ hlt
    constructor
    · unfold step
      rw [hget2]
      unfold stepThread
      dsimp only
      exact List.get?_set_eq_of_lt _ (by simpa using hlt)
    · intro s'
      unfold step
      rw [hget2]
      unfold stepThread
      dsimp only

/-- A configuration whose single scope is already dead, with one fresh
`Kill` caller. -/
def cfgDead : Config :=
  ⟨fun _ => { mkScope none [] 0 with isDead := true },
   [⟨.cas true 0, none, 0⟩]⟩

/-- Witness for `c7_amended` at concrete configurations. -/
theorem c7_amended_witness :
    (¬ CasSucc (run (step cfgRace3 0) [1]) 1 0) ∧
    ((step (step cfgDead 0) 0).threads.get? 0 =
        some ⟨PC.finished, none, 0⟩ ∧
      ∀ s', (step (step cfgDead 0) 0).scopes s' = cfgDead.scopes s') :=
  ⟨c7_amended.1 cfgRace3 0 0
      ⟨⟨PC.cas true 0, none, 0⟩, true, rfl, rfl, rfl⟩ [1] 1,
    c7_amended.2 cfgDead 0 ⟨PC.cas true 0, none, 0⟩ true 0 rfl rfl rfl rfl⟩

/-!  Model B: the racy schedules. -/

/-- C1: in the schedule `schRace1` (the child's shutdown was started
concurrently before the parent's fan-out reached it) the parent raises
`done` while the child has not, so the child's `done` is not raised
strictly before the parent's; extending the schedule lets the child finish
strictly after the parent. -/
theorem c1_parent_done_before_child :
    ((run cfgRace1 schRace1).scopes 0).done = true ∧
    ((run cfgRace1 schRace1).scopes 1).done = false ∧
    ((run cfgRace1 (schRace1 ++ [0, 0, 0, 0, 0, 0, 0, 0, 0])).scopes 1).done
      = true := by
  refine ⟨by decide, by decide, by decide⟩

/-- C2 counterexample: with one outstanding mark, an `UnMark` racing a
`Kill` that has set the dead flag but not yet raised `dying` closes `dead`
first: the reached configuration has `dead` raised and `dying` not. -/
theorem c2_dead_raised_before_dying_cex :
    ((run cfgRace2 schRace2).scopes 0).dead = true ∧
    ((run cfgRace2 schRace2).scopes 0).dying = false := by
  exact ⟨by decide, by decide⟩

/-- C7 counterexample: a second concurrent `Kill` loses the test-and-set
and returns (its thread is finished) while the driver is still blocked at
the tracked gate and `done` has not been raised: the non-driver does not
wait for `done`. -/
theorem c7_nondriver_returns_early_cex :
    (run cfgRace3 schRace3).threads.get? 1 = some ⟨.finished, none, 0⟩ ∧
    ((run cfgRace3 schRace3).scopes 0).done = false := by
  exact ⟨by decide, by decide⟩

end Cascade
